import Mathlib

/-!
Verification of the userspace datapath classifier (dpcls) specified for
lib/dpif-netdev.h.  The repository snapshot only contains the public header
(struct layouts and prototypes for netdev_flow_key, dpcls_rule,
dpcls_subtable, dpcls_subtable_lookup_func, dpcls_subtable_lookup_generic,
netdev_flow_key_gen_masks, dpcls_rule_matches_key); the classifier bodies are
not part of the snapshot, so every operation below is modelled from the
specification text and checked against it.

Machine integers are modelled as Nat: all block values are combined with
bitwise AND only, so 64-bit overflow cannot occur; the 32-bit keys_map bitmap
is rebuilt from its 32 low bits on every lookup, mirroring the uint32_t
arithmetic.
-/

namespace DpclsModel

/-! ## Bit-level infrastructure -/

/-- Indices of the set bits among the 64 bits of one flowmap unit,
in ascending order. -/
def bitIndices (m : Nat) : List Nat :=
  (List.range 64).filter (fun b => m.testBit b)

/-- Population count of one 64-bit flowmap unit. -/
def popcount64 (m : Nat) : Nat :=
  (bitIndices m).length

theorem mem_bitIndices {m b : Nat} : b ∈ bitIndices m ↔ b < 64 ∧ m.testBit b := by
  simp [bitIndices, List.mem_filter, List.mem_range]

theorem bitIndices_sorted (m : Nat) : (bitIndices m).Pairwise (· < ·) := by
  exact List.Pairwise.filter _ (List.pairwise_lt_range 64)

theorem bitIndices_lt {m b : Nat} (h : b ∈ bitIndices m) : b < 64 :=
  (mem_bitIndices.1 h).1

/-- Little-endian bit list to natural number. -/
def bitsToNat : List Bool → Nat
  | [] => 0
  | b :: rest => (if b then 1 else 0) + 2 * bitsToNat rest

/-- The 32-bit bitmap whose bit i is f i; models a uint32_t built bit by bit. -/
def bitmapOf (f : Nat → Bool) : Nat :=
  bitsToNat ((List.range 32).map f)

theorem testBit_bitsToNat (l : List Bool) (j : Nat) :
    (bitsToNat l).testBit j = l.getD j false := by
  induction l generalizing j with
  | nil => simp [bitsToNat]
  | cons b rest ih =>
    cases j with
    | zero =>
      have h2 : ((if b then 1 else 0) + 2 * bitsToNat rest) % 2 = if b then 1 else 0 := by
        cases b <;> simp [Nat.mul_comm 2, Nat.add_mul_mod_self_right]
      rw [bitsToNat, Nat.testBit_zero, h2]
      cases b <;> simp
    | succ j =>
      have h2 : ((if b then 1 else 0) + 2 * bitsToNat rest) / 2 = bitsToNat rest := by
        cases b <;> simp [Nat.mul_comm 2, Nat.add_mul_div_right]
      rw [bitsToNat, Nat.testBit_add_one, h2]
      simpa using ih j

theorem bitsToNat_lt (l : List Bool) : bitsToNat l < 2 ^ l.length := by
  induction l with
  | nil => simp [bitsToNat]
  | cons b rest ih =>
    have hb : (if b then 1 else 0) ≤ 1 := by cases b <;> simp
    simp only [bitsToNat, List.length_cons, pow_succ]
    omega

theorem testBit_bitmapOf (f : Nat → Bool) (j : Nat) :
    (bitmapOf f).testBit j = if j < 32 then f j else false := by
  rw [bitmapOf, testBit_bitsToNat]
  rcases Nat.lt_or_ge j 32 with h | h
  · rw [List.getD_eq_getElem?_getD, List.getElem?_map, List.getElem?_range h]
    simp [h]
  · rw [List.getD_eq_getElem?_getD, List.getElem?_map]
    rw [List.getElem?_eq_none (by simpa using h)]
    simp [Nat.not_lt.2 h]

theorem bitmapOf_lt (f : Nat → Bool) : bitmapOf f < 2 ^ 32 := by
  have := bitsToNat_lt ((List.range 32).map f)
  simpa [bitmapOf] using this

/-! ## Sorted association lists: rank and lookup -/

theorem find_zip_of_sorted {α : Type} (l : List Nat) (vs : List α) (b : Nat)
    (hl : l.Pairwise (· < ·)) (hb : b ∈ l) (hlen : l.length ≤ vs.length) :
    ((l.zip vs).find? (fun q => q.1 == b)).map Prod.snd
      = vs[(l.filter (fun x => x < b)).length]? := by
  induction l generalizing vs with
  | nil => cases hb
  | cons a t ih =>
    cases vs with
    | nil => simp at hlen
    | cons v vt =>
      by_cases hab : a = b
      · subst hab
        have hnone : t.filter (fun x => decide (x < a)) = [] := by
          rw [List.filter_eq_nil_iff]
          intro x hx
          have := (List.pairwise_cons.1 hl).1 x hx
          simp
          omega
        simp [List.zip_cons_cons, List.find?, hnone]
      · have hbt : b ∈ t := by
          rcases List.mem_cons.1 hb with h | h
          · exact absurd h.symm hab
          · exact h
        have halt : a < b := (List.pairwise_cons.1 hl).1 b hbt
        have hfa : ((a, v).1 == b) = false := by
          simp [hab]
        rw [List.zip_cons_cons, List.find?_cons_of_neg _ (by simp [hab])]
        have hfilter : (a :: t).filter (fun x => decide (x < b))
            = a :: t.filter (fun x => decide (x < b)) := by
          simp [List.filter_cons, halt]
        rw [hfilter]
        simp only [List.length_cons, List.getElem?_cons_succ]
        exact ih vt (List.pairwise_cons.1 hl).2 hbt (by simpa using hlen)

theorem find_zip_of_not_mem {α : Type} (l : List Nat) (vs : List α) (b : Nat)
    (hb : b ∉ l) :
    ((l.zip vs).find? (fun q => q.1 == b)) = none := by
  rw [List.find?_eq_none]
  intro x hx
  have := (List.of_mem_zip hx).1
  simp only [beq_iff_eq]
  intro hx1
  exact hb (hx1 ▸ this)

/-- Rank of the j-th element of a sorted list: exactly j smaller elements. -/
theorem rank_of_sorted (l : List Nat) (hl : l.Pairwise (· < ·)) (j : Nat)
    (hj : j < l.length) :
    (l.filter (fun x => x < l[j])).length = j := by
  induction l generalizing j with
  | nil => simp at hj
  | cons a t ih =>
    cases j with
    | zero =>
      have hnone : (a :: t).filter (fun x => decide (x < a)) = [] := by
        rw [List.filter_eq_nil_iff]
        intro x hx
        rcases List.mem_cons.1 hx with h | h
        · simp [h]
        · have := (List.pairwise_cons.1 hl).1 x h
          simp
          omega
      simp only [List.getElem_cons_zero]
      simp [hnone]
    | succ j =>
      have hjt : j < t.length := by simpa using hj
      have hmem : t[j] ∈ t := List.getElem_mem hjt
      have halt : a < t[j] := (List.pairwise_cons.1 hl).1 _ hmem
      have : (a :: t).filter (fun x => decide (x < t[j]))
          = a :: t.filter (fun x => decide (x < t[j])) := by
        simp [List.filter_cons, halt]
      simp only [List.getElem_cons_succ]
      rw [this]
      simp only [List.length_cons]
      rw [ih (List.pairwise_cons.1 hl).2 j hjt]

theorem find_eq_of_unique {α : Type} (p : α → Bool) (l : List α) (a : α)
    (ha : a ∈ l) (hpa : p a = true) (huniq : ∀ x ∈ l, p x = true → x = a) :
    l.find? p = some a := by
  induction l with
  | nil => cases ha
  | cons x t ih =>
    by_cases hpx : p x = true
    · have : x = a := huniq x (List.mem_cons_self x t) hpx
      subst this
      simp [List.find?_cons_of_pos _ hpx]
    · rw [List.find?_cons_of_neg _ (by simpa using hpx)]
      have hat : a ∈ t := by
        rcases List.mem_cons.1 ha with h | h
        · exact absurd (h ▸ hpa) hpx
        · exact h
      exact ih hat (fun x hx hp => huniq x (List.mem_cons_of_mem _ hx) hp)

/-! ## Miniflow and flow key (struct miniflow, struct netdev_flow_key) -/

/-- Modelled from the spec: a miniflow is a two-unit flowmap (unit 0 for block
indices below 64, unit 1 for indices 64 and above, each a 64-bit word) plus a
packed array of the populated block values in ascending block-index order.
The implementation (lib/flow.h miniflow) is not part of the snapshot. -/
structure Miniflow where
  map0 : Nat
  map1 : Nat
  values : List Nat
  deriving DecidableEq

/-- Does the two-unit flowmap contain block index b (0 <= b < 128)? -/
def fmTest (m0 m1 : Nat) (b : Nat) : Bool :=
  if b < 64 then m0.testBit b else m1.testBit (b - 64)

/-- All populated block indices of a two-unit flowmap, ascending. -/
def fmIndices (m0 m1 : Nat) : List Nat :=
  (List.range 128).filter (fmTest m0 m1)

/-- The ordered (block index, value) pairs of a miniflow; this is the
flowmap-driven iteration of the spec. -/
def Miniflow.pairs (mf : Miniflow) : List (Nat × Nat) :=
  (fmIndices mf.map0 mf.map1).zip mf.values

/-- Read one block of a miniflow by block index. -/
def Miniflow.get (mf : Miniflow) (b : Nat) : Option Nat :=
  (mf.pairs.find? (fun q => q.1 == b)).map Prod.snd

/-- Modelled from the spec: well-formedness invariant of a miniflow, the packed
array holds exactly popcount(flowmap) values and each unit fits in 64 bits. -/
def Miniflow.WF (mf : Miniflow) : Prop :=
  mf.map0 < 2 ^ 64 ∧ mf.map1 < 2 ^ 64 ∧
    mf.values.length = (fmIndices mf.map0 mf.map1).length

instance (mf : Miniflow) : Decidable mf.WF := by
  unfold Miniflow.WF
  infer_instance

/-- struct netdev_flow_key: hash, length in bytes, and the miniflow.  The hash
function differs for different users (header comment), so it is carried as an
opaque field and every lookup-path definition is parameterised over the hash
function used for masked keys. -/
structure NetdevFlowKey where
  hash : Nat
  len : Nat
  mf : Miniflow
  deriving DecidableEq

theorem fmIndices_eq (m0 m1 : Nat) :
    fmIndices m0 m1 = bitIndices m0 ++ (bitIndices m1).map (fun b => 64 + b) := by
  have hsplit : List.range 128 = List.range 64 ++ (List.range 64).map (fun b => 64 + b) := by
    have h : (128 : Nat) = 64 + 64 := by norm_num
    rw [h, List.range_add]
  have h1 : (List.range 64).filter (fmTest m0 m1) = bitIndices m0 := by
    unfold bitIndices
    apply List.filter_congr
    intro x hx
    have hx64 : x < 64 := List.mem_range.1 hx
    simp [fmTest, hx64]
  have h2 : ((List.range 64).map (fun b => 64 + b)).filter (fmTest m0 m1)
      = (bitIndices m1).map (fun b => 64 + b) := by
    rw [List.filter_map]
    unfold bitIndices
    have h3 : (List.range 64).filter (fmTest m0 m1 ∘ fun b => 64 + b)
        = (List.range 64).filter (fun b => m1.testBit b) := by
      apply List.filter_congr
      intro x hx
      have hnot : ¬ (64 + x < 64) := by omega
      simp [Function.comp, fmTest, hnot]
    rw [h3]
  rw [fmIndices, hsplit, List.filter_append, h1, h2]

theorem fmIndices_sorted (m0 m1 : Nat) : (fmIndices m0 m1).Pairwise (· < ·) :=
  List.Pairwise.filter _ (List.pairwise_lt_range 128)

theorem length_fmIndices (m0 m1 : Nat) :
    (fmIndices m0 m1).length = popcount64 m0 + popcount64 m1 := by
  rw [fmIndices_eq, List.length_append, List.length_map]
  rfl

theorem mem_fmIndices {m0 m1 b : Nat} :
    b ∈ fmIndices m0 m1 ↔ b < 128 ∧ fmTest m0 m1 b := by
  simp [fmIndices, List.mem_filter, List.mem_range]

/-- Looking up a pair of the miniflow by its own index finds its own value. -/
theorem get_own (mf : Miniflow)
    (hwf : mf.values.length = (fmIndices mf.map0 mf.map1).length) (j : Nat)
    (hj : j < (fmIndices mf.map0 mf.map1).length) :
    mf.get ((fmIndices mf.map0 mf.map1)[j]) = mf.values[j]? := by
  rw [Miniflow.get, Miniflow.pairs,
    find_zip_of_sorted _ _ _ (fmIndices_sorted _ _) (List.getElem_mem hj)
      (le_of_eq hwf.symm),
    rank_of_sorted _ (fmIndices_sorted _ _) j hj]

theorem get_eq_none_of_not_mem (mf : Miniflow) {b : Nat}
    (hb : b ∉ fmIndices mf.map0 mf.map1) : mf.get b = none := by
  rw [Miniflow.get, Miniflow.pairs, find_zip_of_not_mem _ _ _ hb]
  rfl

/-- Membership in pairs coincides with get, for well-formed miniflows. -/
theorem pairs_get (mf : Miniflow) (hwf : mf.WF) (b v : Nat) :
    (b, v) ∈ mf.pairs ↔ mf.get b = some v := by
  constructor
  · intro hmem
    rcases List.getElem_of_mem hmem with ⟨k, hk, hbk⟩
    have hklen : k < (fmIndices mf.map0 mf.map1).length ∧ k < mf.values.length := by
      have h1 : mf.pairs.length
          = min (fmIndices mf.map0 mf.map1).length mf.values.length := by
        simp [Miniflow.pairs]
      omega
    have hgz : mf.pairs[k] = ((fmIndices mf.map0 mf.map1)[k], mf.values[k]) := by
      simp only [Miniflow.pairs]
      exact List.getElem_zip
    rw [hgz] at hbk
    have hb1 : (fmIndices mf.map0 mf.map1)[k] = b := congrArg Prod.fst hbk
    have hv1 : mf.values[k] = v := congrArg Prod.snd hbk
    have hgo := get_own mf hwf.2.2 k hklen.1
    rw [hb1] at hgo
    rw [hgo, List.getElem?_eq_getElem hklen.2, hv1]
  · intro hget
    rw [Miniflow.get] at hget
    rcases hopt : mf.pairs.find? (fun q => q.1 == b) with _ | q
    · rw [hopt] at hget
      cases hget
    · rw [hopt, Option.map_some'] at hget
      have hq1 : q.1 = b := by
        have := List.find?_some hopt
        simpa using this
      have hq2 : q.2 = v := by simpa using hget
      have hmem := List.mem_of_find?_eq_some hopt
      have hqq : q = (b, v) := by
        cases q
        simp only at hq1 hq2
        rw [hq1, hq2]
      exact hqq ▸ hmem

/-! ## Masked keys: flowmap iteration and the mf_masks single-pass scheme -/

/-- Modelled from the spec (§4.1, §4.3): masked key built by iterating M's
flowmap and AND-ing each constrained block of the packet with M's value for
that block; a block the packet does not present contributes 0. -/
def masked_key_iter (tbl pkt : NetdevFlowKey) : List Nat :=
  tbl.mf.pairs.map (fun q => (pkt.mf.get q.1).getD 0 &&& q.2)

/-- Modelled from the spec (§3, §4.2): the masked flow key P&M used as a rule
key; its flowmap is the mask's flowmap, its values are the masked blocks, and
its hash is computed by the caller-chosen function over the packed values. -/
def netdev_flow_key_init_masked (hashFn : List Nat → Nat)
    (pkt mask : NetdevFlowKey) : NetdevFlowKey :=
  { hash := hashFn (masked_key_iter mask pkt),
    len := 8 * (fmIndices mask.mf.map0 mask.mf.map1).length,
    mf := { map0 := mask.mf.map0, map1 := mask.mf.map1,
            values := masked_key_iter mask pkt } }

/-- Modelled from the spec (§4.3 mask-expansion cache): for each populated
block of one flowmap unit of the mask, in ascending order, a 64-bit value
whose set bits are exactly the bits below that block index.  It combines a
bitmask (AND with the packet's flowmap unit isolates the packet's populated
bits below the block) and a positional hint (the popcount of that AND is the
offset of the block's value in the packet's packed array). -/
def netdev_flow_key_gen_mask_unit (m : Nat) (count : Nat) : List Nat :=
  ((bitIndices m).map (fun b => 2 ^ b - 1)).take count

/-- Modelled from the spec: netdev_flow_key_gen_masks (declared in
lib/dpif-netdev.h) precomputes the mask-expansion cache for both units of the
subtable mask tbl. -/
def netdev_flow_key_gen_masks (tbl : NetdevFlowKey)
    (mf_bits_u0 mf_bits_u1 : Nat) : List Nat :=
  netdev_flow_key_gen_mask_unit tbl.mf.map0 mf_bits_u0
    ++ netdev_flow_key_gen_mask_unit tbl.mf.map1 mf_bits_u1

/-- Modelled from the spec (§4.3 step 1): one unit of the single-pass,
branch-free masked-key construction.  For each mf_mask entry, the offset of
the packet block is popcount(mf_mask AND packet flowmap unit); whether the
packet presents the block is tested with (mf_mask + 1) AND the packet flowmap
unit; an absent block is masked out to zero. -/
def flatten_unit (pkt_blocks tbl_blocks mf_masks : List Nat)
    (pkt_mf_bits : Nat) : List Nat :=
  (mf_masks.zip tbl_blocks).map (fun q =>
    if (q.1 + 1) &&& pkt_mf_bits ≠ 0 then
      pkt_blocks.getD (popcount64 (q.1 &&& pkt_mf_bits)) 0 &&& q.2
    else 0)

/-- Modelled from the spec: the full single-pass masked-key construction of a
packet key against a subtable mask, unit 0 then unit 1, writing one contiguous
masked key (the per-packet slice of blocks_scratch). -/
def netdev_flow_key_flatten (pkt tbl : NetdevFlowKey) (mf_masks : List Nat)
    (u0 u1 : Nat) : List Nat :=
  flatten_unit (pkt.mf.values.take (popcount64 pkt.mf.map0))
      (tbl.mf.values.take u0) (mf_masks.take u0) pkt.mf.map0
    ++ flatten_unit (pkt.mf.values.drop (popcount64 pkt.mf.map0))
      (tbl.mf.values.drop u0) (mf_masks.drop u0) pkt.mf.map1

/-- Value of one unit-local block of a packed unit, by block index. -/
def unitGet (pmap : Nat) (pvals : List Nat) (b : Nat) : Option Nat :=
  (((bitIndices pmap).zip pvals).find? (fun q => q.1 == b)).map Prod.snd

theorem popcount64_land_mask (m b : Nat) :
    popcount64 ((2 ^ b - 1) &&& m)
      = ((bitIndices m).filter (fun x => x < b)).length := by
  unfold popcount64
  congr 1
  unfold bitIndices
  rw [List.filter_filter]
  apply List.filter_congr
  intro j hj
  simp [Nat.testBit_and, Bool.and_comm]

theorem land_two_pow_ne_zero_iff (m b : Nat) :
    ((2 ^ b &&& m) ≠ 0) ↔ m.testBit b = true := by
  rw [Nat.two_pow_and]
  rcases h : m.testBit b
  · simp
  · simp [(Nat.two_pow_pos b).ne']

theorem gen_mask_unit_full (m : Nat) :
    netdev_flow_key_gen_mask_unit m (popcount64 m)
      = (bitIndices m).map (fun b => 2 ^ b - 1) := by
  unfold netdev_flow_key_gen_mask_unit
  rw [List.take_of_length_le]
  rw [List.length_map]
  exact le_of_eq rfl

/-- Core of the mask-expansion-cache equivalence, for one flowmap unit. -/
theorem flatten_unit_eq (tmap pmap : Nat) (tblks pvals : List Nat)
    (hp : (bitIndices pmap).length ≤ pvals.length) :
    flatten_unit pvals tblks (netdev_flow_key_gen_mask_unit tmap (popcount64 tmap)) pmap
      = ((bitIndices tmap).zip tblks).map
          (fun q => (unitGet pmap pvals q.1).getD 0 &&& q.2) := by
  rw [gen_mask_unit_full, flatten_unit, List.zip_map_left, List.map_map]
  apply List.map_congr_left
  intro q hq
  have hb := (List.of_mem_zip hq).1
  rcases q with ⟨b, t⟩
  simp only [Function.comp, Prod.map, id_eq]
  rcases hbt : pmap.testBit b
  · have hnotmem : b ∉ bitIndices pmap := by
      intro hmem
      rw [(mem_bitIndices.1 hmem).2] at hbt
      cases hbt
    have hcond : ((2 ^ b - 1 + 1) &&& pmap) = 2 ^ b &&& pmap := by
      rw [Nat.sub_add_cancel Nat.one_le_two_pow]
    have hzero : ¬ ((2 ^ b - 1 + 1) &&& pmap ≠ 0) := by
      rw [hcond]
      intro hne
      rw [(land_two_pow_ne_zero_iff pmap b).1 hne] at hbt
      cases hbt
    rw [if_neg hzero, unitGet, find_zip_of_not_mem _ _ _ hnotmem]
    simp [Nat.zero_and]
  · have hmem : b ∈ bitIndices pmap :=
      mem_bitIndices.2 ⟨bitIndices_lt hb, hbt⟩
    have hcond : ((2 ^ b - 1 + 1) &&& pmap ≠ 0) := by
      rw [Nat.sub_add_cancel Nat.one_le_two_pow]
      exact (land_two_pow_ne_zero_iff pmap b).2 hbt
    rw [if_pos hcond, popcount64_land_mask, unitGet,
      find_zip_of_sorted _ _ _ (bitIndices_sorted pmap) hmem hp]
    rw [List.getD_eq_getElem?_getD]

/-- Packet block read for a unit-0 index goes through the unit-0 slice. -/
theorem get_low (mf : Miniflow) (hwf : mf.values.length = (fmIndices mf.map0 mf.map1).length)
    (b : Nat) (hb : b < 64) :
    mf.get b = unitGet mf.map0 (mf.values.take (popcount64 mf.map0)) b := by
  have hlen : (bitIndices mf.map0).length
      = (mf.values.take (popcount64 mf.map0)).length := by
    rw [List.length_take]
    have h2 := length_fmIndices mf.map0 mf.map1
    unfold popcount64 at h2 ⊢
    omega
  rw [Miniflow.get, Miniflow.pairs, fmIndices_eq,
    ← List.take_append_drop (popcount64 mf.map0) mf.values,
    List.zip_append hlen, List.find?_append]
  have hnone : (((bitIndices mf.map1).map (fun c => 64 + c)).zip
      (mf.values.drop (popcount64 mf.map0))).find? (fun q => q.1 == b) = none := by
    rw [List.find?_eq_none]
    intro x hx
    have hx1 := (List.of_mem_zip hx).1
    rcases List.mem_map.1 hx1 with ⟨c, hc, hcx⟩
    simp only [beq_iff_eq]
    intro heq
    omega
  rw [hnone, Option.or_none, List.take_append_drop]
  rfl

/-- Packet block read for a unit-1 index goes through the unit-1 slice. -/
theorem get_high (mf : Miniflow) (hwf : mf.values.length = (fmIndices mf.map0 mf.map1).length)
    (b : Nat) :
    mf.get (64 + b) = unitGet mf.map1 (mf.values.drop (popcount64 mf.map0)) b := by
  have hlen : (bitIndices mf.map0).length
      = (mf.values.take (popcount64 mf.map0)).length := by
    rw [List.length_take]
    have h2 := length_fmIndices mf.map0 mf.map1
    unfold popcount64 at h2 ⊢
    omega
  rw [Miniflow.get, Miniflow.pairs, fmIndices_eq,
    ← List.take_append_drop (popcount64 mf.map0) mf.values,
    List.zip_append hlen, List.find?_append]
  have hnone : ((bitIndices mf.map0).zip
      (mf.values.take (popcount64 mf.map0))).find? (fun q => q.1 == 64 + b) = none := by
    rw [List.find?_eq_none]
    intro x hx
    have hx1 := (List.of_mem_zip hx).1
    have hx64 := bitIndices_lt hx1
    simp only [beq_iff_eq]
    intro heq
    omega
  rw [hnone, Option.none_or, List.zip_map_left, List.find?_map]
  have hcong : ((fun q : Nat × Nat => q.1 == 64 + b)
      ∘ (Prod.map (fun c => 64 + c) id)) = (fun q : Nat × Nat => q.1 == b) := by
    funext q
    rcases q with ⟨c, v⟩
    simp only [Function.comp, Prod.map_fst]
    rw [Bool.eq_iff_iff]
    simp only [beq_iff_eq]
    omega
  have hsnd : (Prod.snd ∘ Prod.map (fun c => 64 + c) (@id Nat))
      = (Prod.snd : Nat × Nat → Nat) := by
    funext q
    rcases q with ⟨c, v⟩
    rfl
  rw [hcong, unitGet, Option.map_map, List.take_append_drop, hsnd]

/-- Mask-expansion cache equivalence (spec §8 property 6): the single-pass
masked key built from the gen_masks table equals the masked key built by
flowmap iteration. -/
theorem flatten_eq_iter (pkt tbl : NetdevFlowKey)
    (hwfp : pkt.mf.values.length = (fmIndices pkt.mf.map0 pkt.mf.map1).length)
    (hwft : tbl.mf.values.length = (fmIndices tbl.mf.map0 tbl.mf.map1).length) :
    netdev_flow_key_flatten pkt tbl
        (netdev_flow_key_gen_masks tbl (popcount64 tbl.mf.map0) (popcount64 tbl.mf.map1))
        (popcount64 tbl.mf.map0) (popcount64 tbl.mf.map1)
      = masked_key_iter tbl pkt := by
  have hG0len : (netdev_flow_key_gen_mask_unit tbl.mf.map0 (popcount64 tbl.mf.map0)).length
      = popcount64 tbl.mf.map0 := by
    rw [gen_mask_unit_full, List.length_map]
    rfl
  have htake : (netdev_flow_key_gen_masks tbl (popcount64 tbl.mf.map0)
      (popcount64 tbl.mf.map1)).take (popcount64 tbl.mf.map0)
      = netdev_flow_key_gen_mask_unit tbl.mf.map0 (popcount64 tbl.mf.map0) := by
    rw [netdev_flow_key_gen_masks, List.take_left' hG0len]
  have hdrop : (netdev_flow_key_gen_masks tbl (popcount64 tbl.mf.map0)
      (popcount64 tbl.mf.map1)).drop (popcount64 tbl.mf.map0)
      = netdev_flow_key_gen_mask_unit tbl.mf.map1 (popcount64 tbl.mf.map1) := by
    rw [netdev_flow_key_gen_masks, List.drop_left' hG0len]
  have htlen : (bitIndices tbl.mf.map0).length
      = (tbl.mf.values.take (popcount64 tbl.mf.map0)).length := by
    rw [List.length_take]
    have h2 := length_fmIndices tbl.mf.map0 tbl.mf.map1
    unfold popcount64 at h2 ⊢
    omega
  have hplen0 : (bitIndices pkt.mf.map0).length
      ≤ (pkt.mf.values.take (popcount64 pkt.mf.map0)).length := by
    rw [List.length_take]
    have h2 := length_fmIndices pkt.mf.map0 pkt.mf.map1
    unfold popcount64 at h2 ⊢
    omega
  have hplen1 : (bitIndices pkt.mf.map1).length
      ≤ (pkt.mf.values.drop (popcount64 pkt.mf.map0)).length := by
    rw [List.length_drop]
    have h2 := length_fmIndices pkt.mf.map0 pkt.mf.map1
    unfold popcount64 at h2 ⊢
    omega
  rw [netdev_flow_key_flatten, htake, hdrop,
    flatten_unit_eq _ _ _ _ hplen0, flatten_unit_eq _ _ _ _ hplen1,
    masked_key_iter, Miniflow.pairs, fmIndices_eq,
    ← List.take_append_drop (popcount64 tbl.mf.map0) tbl.mf.values,
    List.zip_append htlen, List.map_append, List.take_append_drop]
  congr 1
  · apply List.map_congr_left
    intro q hq
    have hb := bitIndices_lt (List.of_mem_zip hq).1
    rw [get_low pkt.mf hwfp q.1 hb]
  · rw [List.zip_map_left, List.map_map]
    apply List.map_congr_left
    intro q hq
    rcases q with ⟨c, v⟩
    simp only [Function.comp, Prod.map, id_eq]
    rw [get_high pkt.mf hwfp c]

/-! ## Rules, subtables and the lookup path -/

/-- struct dpcls_rule: the mask key of the holding subtable (a back-pointer in
C, a value in this model) and the matching flow key. -/
structure DpclsRule where
  mask : NetdevFlowKey
  flow : NetdevFlowKey
  deriving DecidableEq

/-- Modelled from the spec (§4.1 equality under mask): dpcls_rule_matches_key
(declared in lib/dpif-netdev.h).  For every block index b in the mask's
flowmap, the packet must present block b and satisfy P[b] AND M[b] == K[b];
blocks absent from the mask's flowmap impose no constraint. -/
def dpcls_rule_matches_key (rule : DpclsRule) (target : NetdevFlowKey) : Bool :=
  rule.mask.mf.pairs.all (fun q =>
    match target.mf.get q.1, rule.flow.mf.get q.1 with
    | some pv, some kv => pv &&& q.2 == kv
    | _, _ => false)

/-- struct dpcls_subtable: rules, hit counter, the two per-unit popcounts of
the mask (mf_bits_set_unit0/1), the mask-expansion cache mf_masks, and the
mask key.  The C lookup_func pointer is selected from
(mf_bits_set_unit0, mf_bits_set_unit1) at creation time and is modelled by
dpcls_subtable_get_best_impl applied to those two fields. -/
structure DpclsSubtable where
  rules : List DpclsRule
  hit_cnt : Nat
  mf_bits_set_unit0 : Nat
  mf_bits_set_unit1 : Nat
  mf_masks : List Nat
  mask : NetdevFlowKey
  deriving DecidableEq

/-- Modelled from the spec: subtable creation precomputes the per-unit
popcounts and the mask-expansion cache from the mask. -/
def dpcls_create_subtable (mask : NetdevFlowKey) : DpclsSubtable :=
  { rules := [],
    hit_cnt := 0,
    mf_bits_set_unit0 := popcount64 mask.mf.map0,
    mf_bits_set_unit1 := popcount64 mask.mf.map1,
    mf_masks := netdev_flow_key_gen_masks mask
      (popcount64 mask.mf.map0) (popcount64 mask.mf.map1),
    mask := mask }

/-- Structural well-formedness of a subtable, established by
dpcls_create_subtable. -/
def SubtableWF (st : DpclsSubtable) : Prop :=
  st.mf_bits_set_unit0 = popcount64 st.mask.mf.map0 ∧
  st.mf_bits_set_unit1 = popcount64 st.mask.mf.map1 ∧
  st.mf_masks = netdev_flow_key_gen_masks st.mask
    st.mf_bits_set_unit0 st.mf_bits_set_unit1 ∧
  st.mask.mf.values.length = (fmIndices st.mask.mf.map0 st.mask.mf.map1).length

instance (st : DpclsSubtable) : Decidable (SubtableWF st) := by
  unfold SubtableWF
  infer_instance

/-- Modelled from the spec (§4.3 steps 1-3) for a single packet: build the
masked key via mf_masks, hash it, and scan the hash-collision candidates,
comparing under the mask; the first rule whose stored hash matches the masked
key's hash and which matches the packet wins. -/
def dpcls_subtable_probe (hashFn : List Nat → Nat) (u0 u1 : Nat)
    (st : DpclsSubtable) (k : NetdevFlowKey) : Option DpclsRule :=
  st.rules.find? (fun r =>
    r.flow.hash == hashFn (netdev_flow_key_flatten k st.mask st.mf_masks u0 u1)
      && dpcls_rule_matches_key r k)

/-- The rule found for slot i of the batch, if bit i is still set. -/
def lookup_found (hashFn : List Nat → Nat) (u0 u1 : Nat) (st : DpclsSubtable)
    (keys_map : Nat) (keys : List NetdevFlowKey) (i : Nat) : Option DpclsRule :=
  if keys_map.testBit i then (keys[i]?).bind (dpcls_subtable_probe hashFn u0 u1 st)
  else none

/-- Modelled from the spec (§4.3): the lookup body shared by the generic
implementation and all specialized variants, parameterised by the two unit
popcounts.  For each set bit i of the 32-bit keys_map it probes packet i;
on a match it writes the rule to slot i of rules and clears bit i; otherwise
slot i and bit i are left unchanged.  It returns the updated keys_map and
rules array. -/
def dpcls_subtable_lookup_impl (hashFn : List Nat → Nat) (u0 u1 : Nat)
    (st : DpclsSubtable) (keys_map : Nat) (keys : List NetdevFlowKey)
    (rules : List (Option DpclsRule)) : Nat × List (Option DpclsRule) :=
  (bitmapOf (fun i =>
      keys_map.testBit i && (lookup_found hashFn u0 u1 st keys_map keys i).isNone),
   (List.range rules.length).map (fun i =>
      match lookup_found hashFn u0 u1 st keys_map keys i with
      | some r => some r
      | none => rules.getD i none))

/-- Modelled from the spec: dpcls_subtable_lookup_generic (declared in
lib/dpif-netdev.h), defined for any mask shape, reading the unit popcounts
from the subtable. -/
def dpcls_subtable_lookup_generic (hashFn : List Nat → Nat) (st : DpclsSubtable)
    (keys_map : Nat) (keys : List NetdevFlowKey)
    (rules : List (Option DpclsRule)) : Nat × List (Option DpclsRule) :=
  dpcls_subtable_lookup_impl hashFn st.mf_bits_set_unit0 st.mf_bits_set_unit1
    st keys_map keys rules

/-- Modelled from the spec (§4.3): specialized variant for subtables with
5 populated unit-0 blocks and 1 populated unit-1 block; the unit counts are
compile-time constants of the unrolled loop. -/
def dpcls_subtable_lookup_mf_u0w5_u1w1 (hashFn : List Nat → Nat)
    (st : DpclsSubtable) (keys_map : Nat) (keys : List NetdevFlowKey)
    (rules : List (Option DpclsRule)) : Nat × List (Option DpclsRule) :=
  dpcls_subtable_lookup_impl hashFn 5 1 st keys_map keys rules

/-- Modelled from the spec: specialized variant for (4, 1). -/
def dpcls_subtable_lookup_mf_u0w4_u1w1 (hashFn : List Nat → Nat)
    (st : DpclsSubtable) (keys_map : Nat) (keys : List NetdevFlowKey)
    (rules : List (Option DpclsRule)) : Nat × List (Option DpclsRule) :=
  dpcls_subtable_lookup_impl hashFn 4 1 st keys_map keys rules

/-- Modelled from the spec: specialized variant for (4, 0). -/
def dpcls_subtable_lookup_mf_u0w4_u1w0 (hashFn : List Nat → Nat)
    (st : DpclsSubtable) (keys_map : Nat) (keys : List NetdevFlowKey)
    (rules : List (Option DpclsRule)) : Nat × List (Option DpclsRule) :=
  dpcls_subtable_lookup_impl hashFn 4 0 st keys_map keys rules

/-- Modelled from the spec (§4.3, §9): selection of the subtable lookup
function from the miniflow fingerprint (mf_bits_set_unit0, mf_bits_set_unit1)
at subtable creation time; the generic implementation is the final fallback. -/
def dpcls_subtable_get_best_impl (u0 u1 : Nat) :
    (List Nat → Nat) → DpclsSubtable → Nat → List NetdevFlowKey →
      List (Option DpclsRule) → Nat × List (Option DpclsRule) :=
  if u0 = 5 ∧ u1 = 1 then dpcls_subtable_lookup_mf_u0w5_u1w1
  else if u0 = 4 ∧ u1 = 1 then dpcls_subtable_lookup_mf_u0w4_u1w1
  else if u0 = 4 ∧ u1 = 0 then dpcls_subtable_lookup_mf_u0w4_u1w0
  else dpcls_subtable_lookup_generic

/-- The selected implementation applied to the subtable it was selected for
coincides with the generic lookup. -/
theorem get_best_impl_on_self (hashFn : List Nat → Nat) (st : DpclsSubtable)
    (keys_map : Nat) (keys : List NetdevFlowKey) (rules : List (Option DpclsRule)) :
    dpcls_subtable_get_best_impl st.mf_bits_set_unit0 st.mf_bits_set_unit1
        hashFn st keys_map keys rules
      = dpcls_subtable_lookup_generic hashFn st keys_map keys rules := by
  unfold dpcls_subtable_get_best_impl
  split
  · rename_i h
    rw [dpcls_subtable_lookup_mf_u0w5_u1w1, dpcls_subtable_lookup_generic,
      h.1, h.2]
  · split
    · rename_i h
      rw [dpcls_subtable_lookup_mf_u0w4_u1w1, dpcls_subtable_lookup_generic,
        h.1, h.2]
    · split
      · rename_i h
        rw [dpcls_subtable_lookup_mf_u0w4_u1w0, dpcls_subtable_lookup_generic,
          h.1, h.2]
      · rfl

/-! ## The classifier -/

/-- struct dpcls, reduced to what lookup and the writer operations observe:
the subtables in the (MRU-ordered) iteration order of the lookup. -/
structure Dpcls where
  subtables : List DpclsSubtable
  deriving DecidableEq

/-- One step of the subtable iteration of dpcls_lookup: stop early once
keys_map is zero, otherwise run the subtable's selected lookup function. -/
def dpcls_lookup_step (hashFn : List Nat → Nat) (keys : List NetdevFlowKey)
    (acc : Nat × List (Option DpclsRule)) (st : DpclsSubtable) :
    Nat × List (Option DpclsRule) :=
  if acc.1 = 0 then acc
  else dpcls_subtable_get_best_impl st.mf_bits_set_unit0 st.mf_bits_set_unit1
    hashFn st acc.1 keys acc.2

/-- Modelled from the spec (§4.2 lookup): initialize keys_map with n low bits
set, iterate subtables in MRU order letting each lookup function clear the
bits of the packets it matched, and stop when keys_map is zero or subtables
are exhausted. -/
def dpcls_lookup (hashFn : List Nat → Nat) (cls : Dpcls)
    (keys : List NetdevFlowKey) (rules : List (Option DpclsRule)) :
    Nat × List (Option DpclsRule) :=
  cls.subtables.foldl (dpcls_lookup_step hashFn keys) (2 ^ keys.length - 1, rules)

/-- Modelled from the spec (§4.2 insert): place the rule into the subtable
whose mask equals the rule's mask, creating and appending the subtable if
absent; the stored rule's mask field is set to the holding subtable's mask
(the back-pointer assignment of the C code). -/
def dpcls_insert (cls : Dpcls) (r : DpclsRule) : Dpcls :=
  if cls.subtables.any (fun st => st.mask == r.mask) then
    { subtables := cls.subtables.map (fun st =>
        if st.mask == r.mask then
          { st with rules := { mask := st.mask, flow := r.flow } :: st.rules }
        else st) }
  else
    { subtables := cls.subtables
        ++ [{ dpcls_create_subtable r.mask with
              rules := [{ mask := (dpcls_create_subtable r.mask).mask,
                          flow := r.flow }] }] }

/-- Modelled from the spec (§4.2 remove): remove the rule from the subtable
holding its mask; a subtable left without rules is destroyed. -/
def dpcls_remove (cls : Dpcls) (r : DpclsRule) : Dpcls :=
  { subtables := (cls.subtables.map (fun st =>
      if st.mask == r.mask then { st with rules := st.rules.erase r } else st)).filter
        (fun st => !st.rules.isEmpty) }

/-- Insert one subtable into a list sorted by descending hit count. -/
def insertByHits (st : DpclsSubtable) : List DpclsSubtable → List DpclsSubtable
  | [] => [st]
  | x :: xs => if x.hit_cnt ≤ st.hit_cnt then st :: x :: xs
    else x :: insertByHits st xs

/-- Sort subtables by descending hit count (insertion sort). -/
def sortByHits : List DpclsSubtable → List DpclsSubtable
  | [] => []
  | x :: xs => insertByHits x (sortByHits xs)

/-- Modelled from the spec (§4.4 optimize): reorder the MRU view by
descending hit count and reset the counters. -/
def dpcls_optimize (cls : Dpcls) : Dpcls :=
  { subtables := (sortByHits cls.subtables).map (fun st => { st with hit_cnt := 0 }) }

/-- The mask back-pointer invariant: every rule of every subtable carries
exactly the mask key of the subtable that holds it. -/
def MaskInv (cls : Dpcls) : Prop :=
  ∀ st ∈ cls.subtables, ∀ r ∈ st.rules, r.mask = st.mask

instance (cls : Dpcls) : Decidable (MaskInv cls) := by
  unfold MaskInv
  infer_instance

/-! ## Pointwise behaviour of one subtable lookup -/

/-- Probe with the subtable's own unit popcounts (the selected function). -/
def stProbe (hashFn : List Nat → Nat) (st : DpclsSubtable)
    (k : NetdevFlowKey) : Option DpclsRule :=
  dpcls_subtable_probe hashFn st.mf_bits_set_unit0 st.mf_bits_set_unit1 st k

theorem getElem?_eq_some_getD {α : Type} (l : List α) (d : α) (i : Nat)
    (h : i < l.length) : l[i]? = some (l.getD i d) := by
  rw [List.getD_eq_getElem?_getD, List.getElem?_eq_getElem h]
  rfl

theorem lookup_impl_fst_testBit (hashFn : List Nat → Nat) (u0 u1 : Nat)
    (st : DpclsSubtable) (keys_map : Nat) (keys : List NetdevFlowKey)
    (rules : List (Option DpclsRule)) (i : Nat) :
    ((dpcls_subtable_lookup_impl hashFn u0 u1 st keys_map keys rules).1).testBit i
      = if i < 32 then
          keys_map.testBit i && (lookup_found hashFn u0 u1 st keys_map keys i).isNone
        else false := by
  have hfst : (dpcls_subtable_lookup_impl hashFn u0 u1 st keys_map keys rules).1
      = bitmapOf (fun j => keys_map.testBit j
          && (lookup_found hashFn u0 u1 st keys_map keys j).isNone) := rfl
  rw [hfst]
  exact testBit_bitmapOf _ i

theorem lookup_impl_snd_length (hashFn : List Nat → Nat) (u0 u1 : Nat)
    (st : DpclsSubtable) (keys_map : Nat) (keys : List NetdevFlowKey)
    (rules : List (Option DpclsRule)) :
    (dpcls_subtable_lookup_impl hashFn u0 u1 st keys_map keys rules).2.length
      = rules.length := by
  simp [dpcls_subtable_lookup_impl]

theorem lookup_impl_snd_getElem (hashFn : List Nat → Nat) (u0 u1 : Nat)
    (st : DpclsSubtable) (keys_map : Nat) (keys : List NetdevFlowKey)
    (rules : List (Option DpclsRule)) (i : Nat) (hi : i < rules.length) :
    (dpcls_subtable_lookup_impl hashFn u0 u1 st keys_map keys rules).2[i]?
      = some (match lookup_found hashFn u0 u1 st keys_map keys i with
          | some r => some r
          | none => rules.getD i none) := by
  have hsnd : (dpcls_subtable_lookup_impl hashFn u0 u1 st keys_map keys rules).2
      = (List.range rules.length).map (fun j =>
          match lookup_found hashFn u0 u1 st keys_map keys j with
          | some r => some r
          | none => rules.getD j none) := rfl
  rw [hsnd, List.getElem?_map, List.getElem?_range hi, Option.map_some']

theorem lookup_found_of_bit_false (hashFn : List Nat → Nat) (u0 u1 : Nat)
    (st : DpclsSubtable) (keys_map : Nat) (keys : List NetdevFlowKey) (i : Nat)
    (hbit : keys_map.testBit i = false) :
    lookup_found hashFn u0 u1 st keys_map keys i = none := by
  rw [lookup_found, if_neg]
  rw [hbit]
  intro h
  cases h

theorem lookup_found_of_bit_true (hashFn : List Nat → Nat) (u0 u1 : Nat)
    (st : DpclsSubtable) (keys_map : Nat) (keys : List NetdevFlowKey) (i : Nat)
    (hbit : keys_map.testBit i = true) :
    lookup_found hashFn u0 u1 st keys_map keys i
      = (keys[i]?).bind (dpcls_subtable_probe hashFn u0 u1 st) := by
  rw [lookup_found, if_pos hbit]

/-! ## Invariants of the subtable fold of dpcls_lookup -/

theorem step_of_ne_zero (hashFn : List Nat → Nat) (keys : List NetdevFlowKey)
    (km : Nat) (rules : List (Option DpclsRule)) (st : DpclsSubtable)
    (h : km ≠ 0) :
    dpcls_lookup_step hashFn keys (km, rules) st
      = dpcls_subtable_lookup_impl hashFn st.mf_bits_set_unit0
          st.mf_bits_set_unit1 st km keys rules := by
  rw [dpcls_lookup_step, if_neg h, get_best_impl_on_self,
    dpcls_subtable_lookup_generic]

/-- Frame property of the fold: a slot whose bit no subtable clears keeps its
bit and its rules entry. -/
theorem foldl_untouched (hashFn : List Nat → Nat) (keys : List NetdevFlowKey)
    (sts : List DpclsSubtable) (i : Nat) (hi32 : i < 32)
    (hmiss : ∀ st ∈ sts, (keys[i]?).bind (stProbe hashFn st) = none) :
    ∀ km rules, km.testBit i = true → i < rules.length →
      ((sts.foldl (dpcls_lookup_step hashFn keys) (km, rules)).1.testBit i = true ∧
       (sts.foldl (dpcls_lookup_step hashFn keys) (km, rules)).2[i]? = rules[i]? ∧
       (sts.foldl (dpcls_lookup_step hashFn keys) (km, rules)).2.length = rules.length) := by
  induction sts with
  | nil =>
    intro km rules hbit hlen
    exact ⟨hbit, rfl, rfl⟩
  | cons st sts ih =>
    intro km rules hbit hlen
    have hkm0 : km ≠ 0 := by
      intro h
      rw [h] at hbit
      simp at hbit
    have hfound : lookup_found hashFn st.mf_bits_set_unit0 st.mf_bits_set_unit1
        st km keys i = none := by
      rw [lookup_found_of_bit_true _ _ _ _ _ _ _ hbit]
      exact hmiss st (List.mem_cons_self st sts)
    have hstep := step_of_ne_zero hashFn keys km rules st hkm0
    have hbit2 : (dpcls_lookup_step hashFn keys (km, rules) st).1.testBit i = true := by
      rw [hstep, lookup_impl_fst_testBit, if_pos hi32, hbit, hfound]
      rfl
    have hent2 : (dpcls_lookup_step hashFn keys (km, rules) st).2[i]? = rules[i]? := by
      rw [hstep, lookup_impl_snd_getElem _ _ _ _ _ _ _ _ hlen, hfound]
      exact (getElem?_eq_some_getD rules none i hlen).symm
    have hlen2 : (dpcls_lookup_step hashFn keys (km, rules) st).2.length
        = rules.length := by
      rw [hstep, lookup_impl_snd_length]
    rw [List.foldl_cons]
    have ihr := ih (fun s hs => hmiss s (List.mem_cons_of_mem _ hs))
      (dpcls_lookup_step hashFn keys (km, rules) st).1
      (dpcls_lookup_step hashFn keys (km, rules) st).2
      hbit2 (by omega)
    refine ⟨ihr.1, ?_, ?_⟩
    · rw [ihr.2.1, hent2]
    · rw [ihr.2.2, hlen2]

/-- Frame property of the fold: a slot whose bit is already clear is never
written again. -/
theorem foldl_cleared (hashFn : List Nat → Nat) (keys : List NetdevFlowKey)
    (sts : List DpclsSubtable) (i : Nat) :
    ∀ km rules, km.testBit i = false → i < rules.length →
      ((sts.foldl (dpcls_lookup_step hashFn keys) (km, rules)).1.testBit i = false ∧
       (sts.foldl (dpcls_lookup_step hashFn keys) (km, rules)).2[i]? = rules[i]? ∧
       (sts.foldl (dpcls_lookup_step hashFn keys) (km, rules)).2.length = rules.length) := by
  induction sts with
  | nil =>
    intro km rules hbit hlen
    exact ⟨hbit, rfl, rfl⟩
  | cons st sts ih =>
    intro km rules hbit hlen
    rw [List.foldl_cons]
    by_cases hkm0 : km = 0
    · have hstep : dpcls_lookup_step hashFn keys (km, rules) st = (km, rules) := by
        rw [dpcls_lookup_step, if_pos hkm0]
      rw [hstep]
      exact ih km rules hbit hlen
    · have hstep := step_of_ne_zero hashFn keys km rules st hkm0
      have hfound := lookup_found_of_bit_false hashFn st.mf_bits_set_unit0
        st.mf_bits_set_unit1 st km keys i hbit
      have hbit2 : (dpcls_lookup_step hashFn keys (km, rules) st).1.testBit i = false := by
        rw [hstep, lookup_impl_fst_testBit]
        rcases Nat.lt_or_ge i 32 with h32 | h32
        · rw [if_pos h32, hbit]
          rfl
        · rw [if_neg (by omega)]
      have hent2 : (dpcls_lookup_step hashFn keys (km, rules) st).2[i]? = rules[i]? := by
        rw [hstep, lookup_impl_snd_getElem _ _ _ _ _ _ _ _ hlen, hfound]
        exact (getElem?_eq_some_getD rules none i hlen).symm
      have hlen2 : (dpcls_lookup_step hashFn keys (km, rules) st).2.length
          = rules.length := by
        rw [hstep, lookup_impl_snd_length]
      have ihr := ih (dpcls_lookup_step hashFn keys (km, rules) st).1
        (dpcls_lookup_step hashFn keys (km, rules) st).2 hbit2 (by omega)
      refine ⟨ihr.1, ?_, ?_⟩
      · rw [ihr.2.1, hent2]
      · rw [ihr.2.2, hlen2]

/-- Totality dichotomy of the fold: each slot either keeps its set bit and its
caller-provided entry, or its bit is cleared and a rule was written. -/
theorem foldl_dichotomy (hashFn : List Nat → Nat) (keys : List NetdevFlowKey)
    (sts : List DpclsSubtable) (i : Nat) (hi32 : i < 32) :
    ∀ km rules, km.testBit i = true → i < rules.length →
      (((sts.foldl (dpcls_lookup_step hashFn keys) (km, rules)).1.testBit i = true ∧
        (sts.foldl (dpcls_lookup_step hashFn keys) (km, rules)).2[i]? = rules[i]?) ∨
       ((sts.foldl (dpcls_lookup_step hashFn keys) (km, rules)).1.testBit i = false ∧
        ∃ r, (sts.foldl (dpcls_lookup_step hashFn keys) (km, rules)).2[i]?
          = some (some r))) := by
  induction sts with
  | nil =>
    intro km rules hbit hlen
    exact Or.inl ⟨hbit, rfl⟩
  | cons st sts ih =>
    intro km rules hbit hlen
    have hkm0 : km ≠ 0 := by
      intro h
      rw [h] at hbit
      simp at hbit
    have hstep := step_of_ne_zero hashFn keys km rules st hkm0
    rw [List.foldl_cons]
    have hlen2 : (dpcls_lookup_step hashFn keys (km, rules) st).2.length
        = rules.length := by
      rw [hstep, lookup_impl_snd_length]
    rcases hfound : lookup_found hashFn st.mf_bits_set_unit0 st.mf_bits_set_unit1
        st km keys i with _ | r
    · have hbit2 : (dpcls_lookup_step hashFn keys (km, rules) st).1.testBit i = true := by
        rw [hstep, lookup_impl_fst_testBit, if_pos hi32, hbit, hfound]
        rfl
      have hent2 : (dpcls_lookup_step hashFn keys (km, rules) st).2[i]? = rules[i]? := by
        rw [hstep, lookup_impl_snd_getElem _ _ _ _ _ _ _ _ hlen, hfound]
        exact (getElem?_eq_some_getD rules none i hlen).symm
      have ihr := ih (dpcls_lookup_step hashFn keys (km, rules) st).1
        (dpcls_lookup_step hashFn keys (km, rules) st).2 hbit2 (by omega)
      rcases ihr with ⟨h1, h2⟩ | ⟨h1, r, h2⟩
      · exact Or.inl ⟨h1, by rw [h2, hent2]⟩
      · exact Or.inr ⟨h1, r, h2⟩
    · have hbit2 : (dpcls_lookup_step hashFn keys (km, rules) st).1.testBit i = false := by
        rw [hstep, lookup_impl_fst_testBit, if_pos hi32, hbit, hfound]
        rfl
      have hent2 : (dpcls_lookup_step hashFn keys (km, rules) st).2[i]?
          = some (some r) := by
        rw [hstep, lookup_impl_snd_getElem _ _ _ _ _ _ _ _ hlen, hfound]
      have hrest := foldl_cleared hashFn keys sts i
        (dpcls_lookup_step hashFn keys (km, rules) st).1
        (dpcls_lookup_step hashFn keys (km, rules) st).2 hbit2 (by omega)
      exact Or.inr ⟨hrest.1, r, by rw [hrest.2.1, hent2]⟩

/-- First matching subtable wins: if every subtable before S misses packet i
and S's probe finds R, the fold clears bit i and writes R. -/
theorem foldl_first_match (hashFn : List Nat → Nat) (keys : List NetdevFlowKey)
    (pre post : List DpclsSubtable) (S : DpclsSubtable) (R : DpclsRule)
    (i : Nat) (hi32 : i < 32)
    (hmiss : ∀ st ∈ pre, (keys[i]?).bind (stProbe hashFn st) = none)
    (hhit : (keys[i]?).bind (stProbe hashFn S) = some R) :
    ∀ km rules, km.testBit i = true → i < rules.length →
      (((pre ++ S :: post).foldl (dpcls_lookup_step hashFn keys) (km, rules)).1.testBit i
          = false ∧
       ((pre ++ S :: post).foldl (dpcls_lookup_step hashFn keys) (km, rules)).2[i]?
          = some (some R)) := by
  intro km rules hbit hlen
  rw [List.foldl_append]
  have hA := foldl_untouched hashFn keys pre i hi32 hmiss km rules hbit hlen
  set p := pre.foldl (dpcls_lookup_step hashFn keys) (km, rules) with hp
  have hkm0 : p.1 ≠ 0 := by
    intro h
    rw [h] at hA
    simp at hA
  rw [List.foldl_cons]
  have hstep := step_of_ne_zero hashFn keys p.1 p.2 S hkm0
  have hfound : lookup_found hashFn S.mf_bits_set_unit0 S.mf_bits_set_unit1
      S p.1 keys i = some R := by
    rw [lookup_found_of_bit_true _ _ _ _ _ _ _ hA.1]
    exact hhit
  have hbit2 : (dpcls_lookup_step hashFn keys (p.1, p.2) S).1.testBit i = false := by
    rw [hstep, lookup_impl_fst_testBit, if_pos hi32, hA.1, hfound]
    rfl
  have hent2 : (dpcls_lookup_step hashFn keys (p.1, p.2) S).2[i]? = some (some R) := by
    have hplen : i < p.2.length := by
      have := hA.2.2
      omega
    rw [hstep, lookup_impl_snd_getElem hashFn S.mf_bits_set_unit0
      S.mf_bits_set_unit1 S p.1 keys p.2 i hplen, hfound]
  have hlen2 : (dpcls_lookup_step hashFn keys (p.1, p.2) S).2.length
      = rules.length := by
    rw [hstep, lookup_impl_snd_length, hA.2.2]
  have hrest := foldl_cleared hashFn keys post i
    (dpcls_lookup_step hashFn keys (p.1, p.2) S).1
    (dpcls_lookup_step hashFn keys (p.1, p.2) S).2 hbit2 (by omega)
  exact ⟨hrest.1, by rw [hrest.2.1, hent2]⟩

/-! ## Matching, masked keys and probe success -/

/-- The packet presents every block the mask constrains. -/
def PresentsAll (pkt mask : NetdevFlowKey) : Prop :=
  ∀ b ∈ fmIndices mask.mf.map0 mask.mf.map1, (pkt.mf.get b).isSome = true

instance (pkt mask : NetdevFlowKey) : Decidable (PresentsAll pkt mask) := by
  unfold PresentsAll
  infer_instance

/-- Block-level characterisation of dpcls_rule_matches_key. -/
theorem matches_key_iff (rule : DpclsRule) (target : NetdevFlowKey) :
    dpcls_rule_matches_key rule target = true ↔
      ∀ q ∈ rule.mask.mf.pairs, ∃ pv kv, target.mf.get q.1 = some pv ∧
        rule.flow.mf.get q.1 = some kv ∧ pv &&& q.2 = kv := by
  rw [dpcls_rule_matches_key, List.all_eq_true]
  constructor
  · intro h q hq
    have h2 := h q hq
    rcases hpv : target.mf.get q.1 with _ | pv
    · rw [hpv] at h2
      simp at h2
    · rcases hkv : rule.flow.mf.get q.1 with _ | kv
      · rw [hpv, hkv] at h2
        simp at h2
      · rw [hpv, hkv] at h2
        simp only [beq_iff_eq] at h2
        exact ⟨pv, kv, rfl, rfl, h2⟩
  · intro h q hq
    rcases h q hq with ⟨pv, kv, hpv, hkv, heq⟩
    rw [hpv, hkv]
    simpa using heq
/-- Looking up a miniflow at the j-th index of a list known to be its flowmap
index list finds the j-th packed value. -/
theorem get_at_index (mf : Miniflow)
    (hwf : mf.values.length = (fmIndices mf.map0 mf.map1).length)
    (L : List Nat) (hL : fmIndices mf.map0 mf.map1 = L) (j : Nat)
    (hj : j < L.length) :
    mf.get (L[j]) = mf.values[j]? := by
  subst hL
  exact get_own mf hwf j hj

/-- The j-th block of a masked key, through the flowmap iteration. -/
theorem masked_key_iter_getElem (mask target : NetdevFlowKey) (j : Nat)
    (hjp : j < mask.mf.pairs.length)
    (hji : j < (fmIndices mask.mf.map0 mask.mf.map1).length)
    (hjv : j < mask.mf.values.length) :
    (masked_key_iter mask target)[j]?
      = some ((target.mf.get ((fmIndices mask.mf.map0 mask.mf.map1)[j])).getD 0
          &&& mask.mf.values[j]) := by
  have hgz : mask.mf.pairs[j]
      = ((fmIndices mask.mf.map0 mask.mf.map1)[j], mask.mf.values[j]) := by
    simp only [Miniflow.pairs]
    exact List.getElem_zip
  rw [masked_key_iter, List.getElem?_map, List.getElem?_eq_getElem hjp,
    Option.map_some', hgz]

/-- A matching rule's stored key values are exactly the masked packet key. -/
theorem masked_eq_values (mask flow target : NetdevFlowKey)
    (hwfm : mask.mf.values.length = (fmIndices mask.mf.map0 mask.mf.map1).length)
    (hwff : flow.mf.values.length = (fmIndices flow.mf.map0 flow.mf.map1).length)
    (hsame0 : flow.mf.map0 = mask.mf.map0) (hsame1 : flow.mf.map1 = mask.mf.map1)
    (hmatch : dpcls_rule_matches_key ⟨mask, flow⟩ target = true) :
    masked_key_iter mask target = flow.mf.values := by
  have hidx : fmIndices flow.mf.map0 flow.mf.map1
      = fmIndices mask.mf.map0 mask.mf.map1 := by
    rw [hsame0, hsame1]
  have hmm : ∀ q ∈ mask.mf.pairs, ∃ pv kv, target.mf.get q.1 = some pv ∧
      flow.mf.get q.1 = some kv ∧ pv &&& q.2 = kv :=
    (matches_key_iff ⟨mask, flow⟩ target).1 hmatch
  have hplen : mask.mf.pairs.length
      = (fmIndices mask.mf.map0 mask.mf.map1).length := by
    rw [Miniflow.pairs, List.length_zip]
    omega
  apply List.ext_getElem?
  intro j
  rcases Nat.lt_or_ge j (fmIndices mask.mf.map0 mask.mf.map1).length with hj | hj
  · have hjp : j < mask.mf.pairs.length := by omega
    have hjv : j < mask.mf.values.length := by omega
    have hjf : j < flow.mf.values.length := by
      rw [hwff, hidx]
      exact hj
    have hgz : mask.mf.pairs[j]
        = ((fmIndices mask.mf.map0 mask.mf.map1)[j], mask.mf.values[j]) := by
      simp only [Miniflow.pairs]
      exact List.getElem_zip
    rcases hmm (mask.mf.pairs[j]) (List.getElem_mem hjp) with ⟨pv, kv, hpv, hkv, heq⟩
    rw [hgz] at hpv hkv heq
    have hpv2 : target.mf.get ((fmIndices mask.mf.map0 mask.mf.map1)[j])
        = some pv := hpv
    have hkv2 : flow.mf.get ((fmIndices mask.mf.map0 mask.mf.map1)[j])
        = some kv := hkv
    have heq2 : pv &&& mask.mf.values[j] = kv := heq
    have hgo : flow.mf.get ((fmIndices mask.mf.map0 mask.mf.map1)[j])
        = flow.mf.values[j]? :=
      get_at_index flow.mf hwff _ hidx j hj
    rw [masked_key_iter_getElem mask target j hjp hj hjv, hpv2, ← hgo, hkv2]
    simp only [Option.getD_some]
    rw [heq2]
  · have h1 : (masked_key_iter mask target).length ≤ j := by
      rw [masked_key_iter, List.length_map]
      omega
    have h2 : flow.mf.values.length ≤ j := by
      rw [hwff, hidx]
      omega
    rw [List.getElem?_eq_none h1, List.getElem?_eq_none h2]

/-- Conversely, if the packet presents every constrained block and its masked
key equals the rule's stored values, the rule matches the packet. -/
theorem matches_of_masked (mask flow target : NetdevFlowKey)
    (hwfm : mask.mf.values.length = (fmIndices mask.mf.map0 mask.mf.map1).length)
    (hwff : flow.mf.values.length = (fmIndices flow.mf.map0 flow.mf.map1).length)
    (hsame0 : flow.mf.map0 = mask.mf.map0) (hsame1 : flow.mf.map1 = mask.mf.map1)
    (hpres : PresentsAll target mask)
    (hkey : masked_key_iter mask target = flow.mf.values) :
    dpcls_rule_matches_key ⟨mask, flow⟩ target = true := by
  have hidx : fmIndices flow.mf.map0 flow.mf.map1
      = fmIndices mask.mf.map0 mask.mf.map1 := by
    rw [hsame0, hsame1]
  rw [matches_key_iff]
  intro q hq
  have hq2 : q ∈ mask.mf.pairs := hq
  rcases List.getElem_of_mem hq2 with ⟨j, hjp, hqj⟩
  have hji : j < (fmIndices mask.mf.map0 mask.mf.map1).length := by
    have hplen : mask.mf.pairs.length
        = min (fmIndices mask.mf.map0 mask.mf.map1).length mask.mf.values.length := by
      rw [Miniflow.pairs, List.length_zip]
    omega
  have hjv : j < mask.mf.values.length := by
    have hplen : mask.mf.pairs.length
        = min (fmIndices mask.mf.map0 mask.mf.map1).length mask.mf.values.length := by
      rw [Miniflow.pairs, List.length_zip]
    omega
  have hgz : mask.mf.pairs[j]
      = ((fmIndices mask.mf.map0 mask.mf.map1)[j], mask.mf.values[j]) := by
    simp only [Miniflow.pairs]
    exact List.getElem_zip
  have hq3 : q = ((fmIndices mask.mf.map0 mask.mf.map1)[j], mask.mf.values[j]) := by
    rw [← hqj, hgz]
  subst hq3
  have hsome := hpres ((fmIndices mask.mf.map0 mask.mf.map1)[j])
    (List.getElem_mem hji)
  rcases hpv : target.mf.get ((fmIndices mask.mf.map0 mask.mf.map1)[j]) with _ | pv
  · rw [hpv] at hsome
    cases hsome
  · have hjf : j < flow.mf.values.length := by
      rw [hwff, hidx]
      exact hji
    have hgo : flow.mf.get ((fmIndices mask.mf.map0 mask.mf.map1)[j])
        = flow.mf.values[j]? :=
      get_at_index flow.mf hwff _ hidx j hji
    have hfv : flow.mf.get ((fmIndices mask.mf.map0 mask.mf.map1)[j])
        = some (flow.mf.values[j]) := by
      rw [hgo, List.getElem?_eq_getElem hjf]
    have hL : (masked_key_iter mask target)[j]?
        = some (pv &&& mask.mf.values[j]) := by
      rw [masked_key_iter_getElem mask target j hjp hji hjv, hpv]
      rfl
    have hR : (masked_key_iter mask target)[j]? = some (flow.mf.values[j]) := by
      rw [hkey, List.getElem?_eq_getElem hjf]
    have hval : pv &&& mask.mf.values[j] = flow.mf.values[j] := by
      have h3 : some (pv &&& mask.mf.values[j]) = some (flow.mf.values[j]) := by
        rw [← hL, hR]
      injection h3
    exact ⟨pv, flow.mf.values[j], rfl, hfv, hval⟩

/-- The probe of a well-formed subtable returns exactly the unique matching
rule with a consistent stored hash. -/
theorem probe_success (hashFn : List Nat → Nat) (st : DpclsSubtable)
    (R : DpclsRule) (P : NetdevFlowKey)
    (hwf : SubtableWF st)
    (hwfp : P.mf.values.length = (fmIndices P.mf.map0 P.mf.map1).length)
    (hmem : R ∈ st.rules)
    (hmask : R.mask = st.mask)
    (hsame0 : R.flow.mf.map0 = st.mask.mf.map0)
    (hsame1 : R.flow.mf.map1 = st.mask.mf.map1)
    (hwff : R.flow.mf.values.length
      = (fmIndices R.flow.mf.map0 R.flow.mf.map1).length)
    (hhash : R.flow.hash = hashFn R.flow.mf.values)
    (hmatch : dpcls_rule_matches_key R P = true)
    (huniq : ∀ r ∈ st.rules, dpcls_rule_matches_key r P = true → r = R) :
    stProbe hashFn st P = some R := by
  have hm2 : dpcls_rule_matches_key ⟨st.mask, R.flow⟩ P = true := by
    rw [← hmask]
    exact hmatch
  have hmk : masked_key_iter st.mask P = R.flow.mf.values :=
    masked_eq_values st.mask R.flow P hwf.2.2.2 hwff hsame0 hsame1 hm2
  have hflat : netdev_flow_key_flatten P st.mask st.mf_masks
      st.mf_bits_set_unit0 st.mf_bits_set_unit1 = masked_key_iter st.mask P := by
    rw [hwf.2.2.1, hwf.1, hwf.2.1]
    exact flatten_eq_iter P st.mask hwfp hwf.2.2.2
  rw [stProbe, dpcls_subtable_probe]
  apply find_eq_of_unique _ _ _ hmem
  · rw [hflat, hmk, Bool.and_eq_true]
    constructor
    · rw [hhash]
      exact beq_self_eq_true _
    · exact hmatch
  · intro r hr hpr
    rw [Bool.and_eq_true] at hpr
    exact huniq r hr hpr.2

/-! ## Helpers for the batch bound, miniflow invariant and mask invariant -/

theorem masked_key_iter_length (mask target : NetdevFlowKey)
    (hwfm : mask.mf.values.length = (fmIndices mask.mf.map0 mask.mf.map1).length) :
    (masked_key_iter mask target).length
      = (fmIndices mask.mf.map0 mask.mf.map1).length := by
  rw [masked_key_iter, List.length_map, Miniflow.pairs, List.length_zip, hwfm,
    Nat.min_self]

theorem init_masked_mf (hashFn : List Nat → Nat) (pkt mask : NetdevFlowKey) :
    (netdev_flow_key_init_masked hashFn pkt mask).mf
      = { map0 := mask.mf.map0, map1 := mask.mf.map1,
          values := masked_key_iter mask pkt } := rfl

theorem init_masked_WF (hashFn : List Nat → Nat) (pkt mask : NetdevFlowKey)
    (hwfm : mask.mf.WF) :
    (netdev_flow_key_init_masked hashFn pkt mask).mf.WF := by
  rw [init_masked_mf]
  refine ⟨hwfm.1, hwfm.2.1, ?_⟩
  exact masked_key_iter_length mask pkt hwfm.2.2

theorem pairs_map_fst (mf : Miniflow)
    (hwf : mf.values.length = (fmIndices mf.map0 mf.map1).length) :
    mf.pairs.map Prod.fst = fmIndices mf.map0 mf.map1 := by
  rw [Miniflow.pairs]
  exact List.map_fst_zip _ _ (le_of_eq hwf.symm)

theorem foldl_fst_lt (hashFn : List Nat → Nat) (keys : List NetdevFlowKey)
    (sts : List DpclsSubtable) :
    ∀ km rules, km < 2 ^ 32 →
      (sts.foldl (dpcls_lookup_step hashFn keys) (km, rules)).1 < 2 ^ 32 := by
  induction sts with
  | nil =>
    intro km rules h
    exact h
  | cons st sts ih =>
    intro km rules h
    rw [List.foldl_cons]
    by_cases hkm : km = 0
    · have hstep : dpcls_lookup_step hashFn keys (km, rules) st = (km, rules) := by
        rw [dpcls_lookup_step, if_pos hkm]
      rw [hstep]
      exact ih km rules h
    · have hstep := step_of_ne_zero hashFn keys km rules st hkm
      rw [hstep]
      exact ih _ _ (bitmapOf_lt _)

theorem lookup_impl_mod32 (hashFn : List Nat → Nat) (u0 u1 : Nat)
    (st : DpclsSubtable) (km : Nat) (keys : List NetdevFlowKey)
    (rules : List (Option DpclsRule)) (hr : rules.length ≤ 32) :
    dpcls_subtable_lookup_impl hashFn u0 u1 st (km % 2 ^ 32) keys rules
      = dpcls_subtable_lookup_impl hashFn u0 u1 st km keys rules := by
  have hbit : ∀ j, j < 32 → (km % 2 ^ 32).testBit j = km.testBit j := by
    intro j hj
    rw [Nat.testBit_mod_two_pow]
    simp [hj]
  have hfound : ∀ j, j < 32 →
      lookup_found hashFn u0 u1 st (km % 2 ^ 32) keys j
        = lookup_found hashFn u0 u1 st km keys j := by
    intro j hj
    rw [lookup_found, lookup_found, hbit j hj]
  rw [dpcls_subtable_lookup_impl, dpcls_subtable_lookup_impl]
  have h1 : bitmapOf (fun i => (km % 2 ^ 32).testBit i
        && (lookup_found hashFn u0 u1 st (km % 2 ^ 32) keys i).isNone)
      = bitmapOf (fun i => km.testBit i
        && (lookup_found hashFn u0 u1 st km keys i).isNone) := by
    rw [bitmapOf, bitmapOf]
    congr 1
    apply List.map_congr_left
    intro j hjm
    have hj := List.mem_range.1 hjm
    rw [hfound j hj, hbit j hj]
  have h2 : (List.range rules.length).map (fun i =>
        match lookup_found hashFn u0 u1 st (km % 2 ^ 32) keys i with
        | some r => some r
        | none => rules.getD i none)
      = (List.range rules.length).map (fun i =>
        match lookup_found hashFn u0 u1 st km keys i with
        | some r => some r
        | none => rules.getD i none) := by
    apply List.map_congr_left
    intro j hjm
    have hj : j < 32 := lt_of_lt_of_le (List.mem_range.1 hjm) hr
    rw [hfound j hj]
  rw [h1, h2]

theorem mem_insertByHits {st x : DpclsSubtable} {l : List DpclsSubtable}
    (h : x ∈ insertByHits st l) : x = st ∨ x ∈ l := by
  induction l with
  | nil =>
    rw [insertByHits] at h
    rcases List.mem_singleton.1 h with h1
    exact Or.inl h1
  | cons a t ih =>
    rw [insertByHits] at h
    by_cases hc : a.hit_cnt ≤ st.hit_cnt
    · rw [if_pos hc] at h
      rcases List.mem_cons.1 h with h1 | h1
      · exact Or.inl h1
      · exact Or.inr h1
    · rw [if_neg hc] at h
      rcases List.mem_cons.1 h with h1 | h1
      · exact Or.inr (h1 ▸ List.mem_cons_self a t)
      · rcases ih h1 with h2 | h2
        · exact Or.inl h2
        · exact Or.inr (List.mem_cons_of_mem a h2)

theorem mem_sortByHits {x : DpclsSubtable} {l : List DpclsSubtable}
    (h : x ∈ sortByHits l) : x ∈ l := by
  induction l with
  | nil =>
    rw [sortByHits] at h
    cases h
  | cons a t ih =>
    rw [sortByHits] at h
    rcases mem_insertByHits h with h1 | h1
    · exact h1 ▸ List.mem_cons_self a t
    · exact List.mem_cons_of_mem a (ih h1)

theorem maskInv_insert (cls : Dpcls) (r : DpclsRule) (h : MaskInv cls) :
    MaskInv (dpcls_insert cls r) := by
  intro st hst r2 hr2
  rw [dpcls_insert] at hst
  by_cases hany : cls.subtables.any (fun s => s.mask == r.mask)
  · rw [if_pos hany] at hst
    rcases List.mem_map.1 hst with ⟨s, hs, hfs⟩
    by_cases hm : s.mask == r.mask
    · rw [if_pos hm] at hfs
      subst hfs
      rcases List.mem_cons.1 hr2 with h1 | h1
      · rw [h1]
      · exact h s hs r2 h1
    · rw [if_neg hm] at hfs
      subst hfs
      exact h s hs r2 hr2
  · rw [if_neg hany] at hst
    rcases List.mem_append.1 hst with h1 | h1
    · exact h st h1 r2 hr2
    · rw [List.mem_singleton] at h1
      subst h1
      rw [List.mem_singleton] at hr2
      subst hr2
      rfl

theorem maskInv_remove (cls : Dpcls) (r : DpclsRule) (h : MaskInv cls) :
    MaskInv (dpcls_remove cls r) := by
  intro st hst r2 hr2
  rw [dpcls_remove] at hst
  have hst2 := List.mem_of_mem_filter hst
  rcases List.mem_map.1 hst2 with ⟨s, hs, hfs⟩
  by_cases hm : s.mask == r.mask
  · rw [if_pos hm] at hfs
    subst hfs
    exact h s hs r2 (List.mem_of_mem_erase hr2)
  · rw [if_neg hm] at hfs
    subst hfs
    exact h s hs r2 hr2

theorem maskInv_optimize (cls : Dpcls) (h : MaskInv cls) :
    MaskInv (dpcls_optimize cls) := by
  intro st hst r2 hr2
  rw [dpcls_optimize] at hst
  rcases List.mem_map.1 hst with ⟨s, hs, hfs⟩
  subst hfs
  exact h s (mem_sortByHits hs) r2 hr2

/-! ## Concrete instances used by the witnesses -/

/-- A concrete hash function for the witnesses (the classifier treats the
hash function as an opaque caller choice). -/
def exHash : List Nat → Nat := fun l => l.sum

/-- A mask key constraining only block 0, with an all-ones byte mask. -/
def exMask : NetdevFlowKey :=
  { hash := 0, len := 8, mf := { map0 := 1, map1 := 0, values := [255] } }

/-- A rule under exMask matching block 0 equal to 18. -/
def exRule : DpclsRule :=
  { mask := exMask,
    flow := { hash := 18, len := 8, mf := { map0 := 1, map1 := 0, values := [18] } } }

/-- The subtable of exMask holding exRule. -/
def exSub : DpclsSubtable :=
  { dpcls_create_subtable exMask with rules := [exRule] }

/-- A classifier with the single subtable exSub. -/
def exCls : Dpcls := { subtables := [exSub] }

/-- A packet key presenting block 0 with value 18. -/
def exPkt : NetdevFlowKey :=
  { hash := 0, len := 8, mf := { map0 := 1, map1 := 0, values := [18] } }

/-- A mask key constraining only block 1. -/
def exMask2 : NetdevFlowKey :=
  { hash := 0, len := 8, mf := { map0 := 2, map1 := 0, values := [255] } }

/-- A rule under exMask2 matching block 1 equal to 7. -/
def exRule2 : DpclsRule :=
  { mask := exMask2,
    flow := { hash := 7, len := 8, mf := { map0 := 2, map1 := 0, values := [7] } } }

/-- The subtable of exMask2 holding exRule2. -/
def exSub2 : DpclsSubtable :=
  { dpcls_create_subtable exMask2 with rules := [exRule2] }

/-- A classifier whose MRU order tries exSub before exSub2. -/
def exCls2 : Dpcls := { subtables := [exSub, exSub2] }

/-- A packet key matched by both exRule (block 0 = 18) and exRule2
(block 1 = 7). -/
def exPkt2 : NetdevFlowKey :=
  { hash := 0, len := 16, mf := { map0 := 3, map1 := 0, values := [18, 7] } }

/-- A rule under exMask whose expected block value is 0. -/
def exRule0 : DpclsRule :=
  { mask := exMask,
    flow := { hash := 0, len := 8, mf := { map0 := 1, map1 := 0, values := [0] } } }

/-- A classifier built by inserting exRule0 into an empty classifier. -/
def exCls0 : Dpcls := dpcls_insert { subtables := [] } exRule0

/-- A packet key presenting no blocks at all. -/
def exPktEmpty : NetdevFlowKey :=
  { hash := 0, len := 0, mf := { map0 := 0, map1 := 0, values := [] } }

/-! ## The claims -/

/-- Claim C1: for every subtable, batch and the specialized lookup variant
selected for that subtable from its (mf_bits_set_unit0, mf_bits_set_unit1)
fingerprint, the specialized variant returns exactly the same result as
dpcls_subtable_lookup_generic: the same rules written for every matched
packet and the same final keys_map. -/
theorem C1_specialization_equivalence (hashFn : List Nat → Nat)
    (st : DpclsSubtable) (keys_map : Nat) (keys : List NetdevFlowKey)
    (rules : List (Option DpclsRule)) :
    dpcls_subtable_get_best_impl st.mf_bits_set_unit0 st.mf_bits_set_unit1
        hashFn st keys_map keys rules
      = dpcls_subtable_lookup_generic hashFn st keys_map keys rules :=
  get_best_impl_on_self hashFn st keys_map keys rules

/-- Claim C2: dpcls_rule_matches_key returns true iff, for every block of the
mask's flowmap with mask value mv, the packet presents the block, the rule
key defines it, and packet-block AND mv equals the rule's key block; blocks
outside the mask's flowmap impose no constraint, and a constrained block the
packet does not present makes the result false. -/
theorem C2_matches_key_characterisation (rule : DpclsRule)
    (target : NetdevFlowKey) :
    dpcls_rule_matches_key rule target = true ↔
      ∀ q ∈ rule.mask.mf.pairs,
        (target.mf.get q.1).isSome = true ∧
        (rule.flow.mf.get q.1).isSome = true ∧
        (target.mf.get q.1).getD 0 &&& q.2 = (rule.flow.mf.get q.1).getD 0 := by
  rw [matches_key_iff]
  constructor
  · intro h q hq
    rcases h q hq with ⟨pv, kv, hpv, hkv, heq⟩
    rw [hpv, hkv]
    exact ⟨rfl, rfl, heq⟩
  · intro h q hq
    rcases h q hq with ⟨h1, h2, h3⟩
    rcases hpv : target.mf.get q.1 with _ | pv
    · rw [hpv] at h1
      cases h1
    · rcases hkv : rule.flow.mf.get q.1 with _ | kv
      · rw [hkv] at h2
        cases h2
      · refine ⟨pv, kv, rfl, rfl, ?_⟩
        rw [hpv, hkv] at h3
        exact h3

/-- Claim C3 as frozen is refuted by this instance: exRule0 was inserted into
an empty classifier, masking the empty packet exPktEmpty with exRule0's mask
yields exactly exRule0's key (value 0 in the only constrained block), the
rule's stored hash is consistent and its subtable is the only one, yet lookup
leaves bit 0 of keys_map set and writes no rule, because equality under mask
requires the packet to present every constrained block. -/
theorem C3_roundtrip_counterexample :
    netdev_flow_key_init_masked exHash exPktEmpty exMask = exRule0.flow ∧
    exRule0.mask = exMask ∧
    exRule0.flow.hash = exHash exRule0.flow.mf.values ∧
    exCls0.subtables.map (fun st => st.rules) = [[exRule0]] ∧
    exCls0.subtables.map (fun st => st.mask) = [exMask] ∧
    (dpcls_lookup exHash exCls0 [exPktEmpty] [none]).1.testBit 0 = true ∧
    (dpcls_lookup exHash exCls0 [exPktEmpty] [none]).2 = [none] := by
  decide

/-- Claim C3, amended: for every rule R inserted and not yet removed and every
packet key P whose flowmap presents every block R's mask constrains, if
masking P with R's mask equals R's key, then a lookup whose subtable
iteration reaches R's subtable (here: no earlier subtable in MRU order
matches P) returns R for that packet and clears its bit in keys_map. -/
theorem C3_roundtrip_amended (hashFn : List Nat → Nat) (cls : Dpcls)
    (pre post : List DpclsSubtable) (S : DpclsSubtable) (R : DpclsRule)
    (P : NetdevFlowKey) (keys : List NetdevFlowKey)
    (rulesIn : List (Option DpclsRule)) (i : Nat)
    (hcls : cls.subtables = pre ++ S :: post)
    (hwf : SubtableWF S)
    (hwfp : P.mf.values.length = (fmIndices P.mf.map0 P.mf.map1).length)
    (hmem : R ∈ S.rules)
    (hmaskp : R.mask = S.mask)
    (hpres : PresentsAll P S.mask)
    (hkey : netdev_flow_key_init_masked hashFn P S.mask = R.flow)
    (huniq : ∀ r ∈ S.rules, dpcls_rule_matches_key r P = true → r = R)
    (hmiss : ∀ st ∈ pre, (keys[i]?).bind (stProbe hashFn st) = none)
    (hkeysi : keys[i]? = some P)
    (hn : keys.length ≤ 32) (hi : i < keys.length)
    (hlen : rulesIn.length = keys.length) :
    (dpcls_lookup hashFn cls keys rulesIn).2[i]? = some (some R) ∧
    (dpcls_lookup hashFn cls keys rulesIn).1.testBit i = false := by
  have hsame0 : R.flow.mf.map0 = S.mask.mf.map0 := by
    rw [← hkey]
    rfl
  have hsame1 : R.flow.mf.map1 = S.mask.mf.map1 := by
    rw [← hkey]
    rfl
  have hvals : R.flow.mf.values = masked_key_iter S.mask P := by
    rw [← hkey]
    rfl
  have hhash : R.flow.hash = hashFn R.flow.mf.values := by
    rw [hvals, ← hkey]
    rfl
  have hwff : R.flow.mf.values.length
      = (fmIndices R.flow.mf.map0 R.flow.mf.map1).length := by
    rw [hvals, hsame0, hsame1]
    exact masked_key_iter_length S.mask P hwf.2.2.2
  have hmatch : dpcls_rule_matches_key R P = true := by
    have h0 := matches_of_masked S.mask R.flow P hwf.2.2.2 hwff hsame0 hsame1
      hpres hvals.symm
    rw [← hmaskp] at h0
    exact h0
  have hprobe : stProbe hashFn S P = some R :=
    probe_success hashFn S R P hwf hwfp hmem hmaskp hsame0 hsame1 hwff hhash
      hmatch huniq
  have hhit : (keys[i]?).bind (stProbe hashFn S) = some R := by
    rw [hkeysi]
    exact hprobe
  have hi32 : i < 32 := lt_of_lt_of_le hi hn
  have hbit : (2 ^ keys.length - 1).testBit i = true := by
    rw [Nat.testBit_two_pow_sub_one]
    simp [hi]
  have hfm := foldl_first_match hashFn keys pre post S R i hi32 hmiss hhit
    (2 ^ keys.length - 1) rulesIn hbit (by omega)
  rw [dpcls_lookup, hcls]
  exact ⟨hfm.2, hfm.1⟩

/-- Claim C4: for every well-formed subtable mask and packet key, the masked
key built in one pass from the precomputed mf_masks table produced by
netdev_flow_key_gen_masks equals the masked key built by iterating the mask's
flowmap and AND-ing each constrained block of the packet with the mask's
value for that block. -/
theorem C4_mask_expansion_cache_equivalence (st : DpclsSubtable)
    (P : NetdevFlowKey)
    (hwf : SubtableWF st)
    (hwfp : P.mf.values.length = (fmIndices P.mf.map0 P.mf.map1).length) :
    netdev_flow_key_flatten P st.mask st.mf_masks
        st.mf_bits_set_unit0 st.mf_bits_set_unit1
      = masked_key_iter st.mask P := by
  rw [hwf.2.2.1, hwf.1, hwf.2.1]
  exact flatten_eq_iter P st.mask hwfp hwf.2.2.2

/-- C3 amended theorem evaluated on a concrete classifier. -/
theorem C3_roundtrip_amended_witness :
    (dpcls_lookup exHash exCls [exPkt] [none]).2[0]? = some (some exRule) ∧
    (dpcls_lookup exHash exCls [exPkt] [none]).1.testBit 0 = false :=
  C3_roundtrip_amended exHash exCls [] [] exSub exRule exPkt [exPkt] [none] 0
    (by decide) (by decide) (by decide) (by decide) (by decide) (by decide)
    (by decide) (by decide) (by decide) (by decide) (by decide) (by decide)
    (by decide)

/-- C4 evaluated on a concrete subtable and packet. -/
theorem C4_mask_expansion_cache_equivalence_witness :
    netdev_flow_key_flatten exPkt exSub.mask exSub.mf_masks
        exSub.mf_bits_set_unit0 exSub.mf_bits_set_unit1
      = masked_key_iter exSub.mask exPkt :=
  C4_mask_expansion_cache_equivalence exSub exPkt (by decide) (by decide)

/-- Claim C5: if rule R1 in subtable S1 and rule R2 in subtable S2 both match
packet P and S1 precedes S2 in the classifier's MRU iteration order, then
lookup assigns R1, not R2, to P: the rule returned is from the first subtable
in MRU order containing a matching rule (every subtable before S1 misses P). -/
theorem C5_mru_first_match (hashFn : List Nat → Nat) (cls : Dpcls)
    (pre post : List DpclsSubtable) (S1 S2 : DpclsSubtable) (R1 R2 : DpclsRule)
    (P : NetdevFlowKey) (keys : List NetdevFlowKey)
    (rulesIn : List (Option DpclsRule)) (i : Nat)
    (hcls : cls.subtables = pre ++ S1 :: post)
    (hS2 : S2 ∈ post)
    (hwf1 : SubtableWF S1)
    (hwfp : P.mf.values.length = (fmIndices P.mf.map0 P.mf.map1).length)
    (hmem1 : R1 ∈ S1.rules)
    (hmask1 : R1.mask = S1.mask)
    (hsame0 : R1.flow.mf.map0 = S1.mask.mf.map0)
    (hsame1 : R1.flow.mf.map1 = S1.mask.mf.map1)
    (hwff1 : R1.flow.mf.values.length
      = (fmIndices R1.flow.mf.map0 R1.flow.mf.map1).length)
    (hhash1 : R1.flow.hash = hashFn R1.flow.mf.values)
    (hmatch1 : dpcls_rule_matches_key R1 P = true)
    (huniq1 : ∀ r ∈ S1.rules, dpcls_rule_matches_key r P = true → r = R1)
    (hR2 : R2 ∈ S2.rules)
    (hmatch2 : dpcls_rule_matches_key R2 P = true)
    (hne : R2 ≠ R1)
    (hmiss : ∀ st ∈ pre, (keys[i]?).bind (stProbe hashFn st) = none)
    (hkeysi : keys[i]? = some P)
    (hn : keys.length ≤ 32) (hi : i < keys.length)
    (hlen : rulesIn.length = keys.length) :
    (dpcls_lookup hashFn cls keys rulesIn).2[i]? = some (some R1) ∧
    (dpcls_lookup hashFn cls keys rulesIn).2[i]? ≠ some (some R2) := by
  have hprobe : stProbe hashFn S1 P = some R1 :=
    probe_success hashFn S1 R1 P hwf1 hwfp hmem1 hmask1 hsame0 hsame1 hwff1
      hhash1 hmatch1 huniq1
  have hhit : (keys[i]?).bind (stProbe hashFn S1) = some R1 := by
    rw [hkeysi]
    exact hprobe
  have hi32 : i < 32 := lt_of_lt_of_le hi hn
  have hbit : (2 ^ keys.length - 1).testBit i = true := by
    rw [Nat.testBit_two_pow_sub_one]
    simp [hi]
  have hfm := foldl_first_match hashFn keys pre post S1 R1 i hi32 hmiss hhit
    (2 ^ keys.length - 1) rulesIn hbit (by omega)
  have h1 : (dpcls_lookup hashFn cls keys rulesIn).2[i]? = some (some R1) := by
    rw [dpcls_lookup, hcls]
    exact hfm.2
  refine ⟨h1, ?_⟩
  rw [h1]
  intro hcontra
  have h2 : R1 = R2 := Option.some.inj (Option.some.inj hcontra)
  exact hne h2.symm

/-- Claim C6: after a lookup over a batch, for every packet index i that no
subtable matched, bit i of the final keys_map is still set and rules_out[i]
holds exactly the value it held before the call. -/
theorem C6_miss_bitmap_frame (hashFn : List Nat → Nat) (cls : Dpcls)
    (keys : List NetdevFlowKey) (rulesIn : List (Option DpclsRule))
    (i : Nat) (P : NetdevFlowKey)
    (hkeysi : keys[i]? = some P)
    (hnomatch : ∀ st ∈ cls.subtables, stProbe hashFn st P = none)
    (hn : keys.length ≤ 32) (hi : i < keys.length)
    (hlen : rulesIn.length = keys.length) :
    (dpcls_lookup hashFn cls keys rulesIn).1.testBit i = true ∧
    (dpcls_lookup hashFn cls keys rulesIn).2[i]? = rulesIn[i]? := by
  have hmiss : ∀ st ∈ cls.subtables, (keys[i]?).bind (stProbe hashFn st) = none := by
    intro st hst
    rw [hkeysi]
    exact hnomatch st hst
  have hi32 : i < 32 := lt_of_lt_of_le hi hn
  have hbit : (2 ^ keys.length - 1).testBit i = true := by
    rw [Nat.testBit_two_pow_sub_one]
    simp [hi]
  have h := foldl_untouched hashFn keys cls.subtables i hi32 hmiss
    (2 ^ keys.length - 1) rulesIn hbit (by omega)
  rw [dpcls_lookup]
  exact ⟨h.1, h.2.1⟩

/-- Claim C7: the lookup path is total and error-free: for every packet of the
batch it either writes a rule and clears the packet's bit, or leaves the bit
set and the slot untouched; there is no error value, a miss is expressed
solely by the still-set bit. -/
theorem C7_lookup_total (hashFn : List Nat → Nat) (cls : Dpcls)
    (keys : List NetdevFlowKey) (rulesIn : List (Option DpclsRule)) (i : Nat)
    (hn : keys.length ≤ 32) (hi : i < keys.length)
    (hlen : rulesIn.length = keys.length) :
    ((dpcls_lookup hashFn cls keys rulesIn).1.testBit i = false ∧
      (((dpcls_lookup hashFn cls keys rulesIn).2[i]?).getD none).isSome = true) ∨
    ((dpcls_lookup hashFn cls keys rulesIn).1.testBit i = true ∧
      (dpcls_lookup hashFn cls keys rulesIn).2[i]? = rulesIn[i]?) := by
  have hi32 : i < 32 := lt_of_lt_of_le hi hn
  have hbit : (2 ^ keys.length - 1).testBit i = true := by
    rw [Nat.testBit_two_pow_sub_one]
    simp [hi]
  have h := foldl_dichotomy hashFn keys cls.subtables i hi32
    (2 ^ keys.length - 1) rulesIn hbit (by omega)
  rw [dpcls_lookup]
  rcases h with ⟨h1, h2⟩ | ⟨h1, r, h2⟩
  · exact Or.inr ⟨h1, h2⟩
  · refine Or.inl ⟨h1, ?_⟩
    rw [h2]
    rfl

/-- Claim C8: for every well-formed miniflow, the packed value array length
equals the popcount of the flowmap split per unit (unit 0 below block 64,
unit 1 from 64 up), flowmap-driven iteration visits exactly the populated
blocks in ascending order, and the masked-key constructor preserves the
invariant. -/
theorem C8_miniflow_invariant :
    (∀ mf : Miniflow, mf.WF →
      (mf.values.length = popcount64 mf.map0 + popcount64 mf.map1 ∧
       mf.pairs.map Prod.fst = fmIndices mf.map0 mf.map1 ∧
       (mf.pairs.map Prod.fst).Pairwise (· < ·))) ∧
    (∀ (hashFn : List Nat → Nat) (pkt mask : NetdevFlowKey), mask.mf.WF →
      (netdev_flow_key_init_masked hashFn pkt mask).mf.WF) := by
  constructor
  · intro mf hwf
    refine ⟨?_, pairs_map_fst mf hwf.2.2, ?_⟩
    · rw [hwf.2.2, length_fmIndices]
    · rw [pairs_map_fst mf hwf.2.2]
      exact fmIndices_sorted _ _
  · intro hashFn pkt mask hwf
    exact init_masked_WF hashFn pkt mask hwf

/-- Claim C9: a lookup batch holds at most 32 packets; with n <= 32 the
initial bitmap 2^n - 1 and the final keys_map fit in 32 bits, no bit at index
32 or above is ever set, and a subtable lookup only observes the 32 low bits
of the incoming keys_map. -/
theorem C9_batch_bitmap_bound (hashFn : List Nat → Nat) (cls : Dpcls)
    (keys : List NetdevFlowKey) (rulesIn : List (Option DpclsRule))
    (hn : keys.length ≤ 32) (hr : rulesIn.length ≤ 32) :
    2 ^ keys.length - 1 < 2 ^ 32 ∧
    (dpcls_lookup hashFn cls keys rulesIn).1 < 2 ^ 32 ∧
    (∀ j, 32 ≤ j → (dpcls_lookup hashFn cls keys rulesIn).1.testBit j = false) ∧
    (∀ (u0 u1 : Nat) (st : DpclsSubtable) (km : Nat),
      dpcls_subtable_lookup_impl hashFn u0 u1 st (km % 2 ^ 32) keys rulesIn
        = dpcls_subtable_lookup_impl hashFn u0 u1 st km keys rulesIn) := by
  have hinit : 2 ^ keys.length - 1 < 2 ^ 32 := by
    have h1 : 2 ^ keys.length ≤ 2 ^ 32 := Nat.pow_le_pow_right (by omega) hn
    have h2 : 0 < 2 ^ keys.length := Nat.two_pow_pos _
    omega
  have hres : (dpcls_lookup hashFn cls keys rulesIn).1 < 2 ^ 32 := by
    rw [dpcls_lookup]
    exact foldl_fst_lt hashFn keys cls.subtables _ _ hinit
  refine ⟨hinit, hres, ?_, ?_⟩
  · intro j hj
    apply Nat.testBit_lt_two_pow
    calc (dpcls_lookup hashFn cls keys rulesIn).1 < 2 ^ 32 := hres
      _ ≤ 2 ^ j := Nat.pow_le_pow_right (by omega) hj
  · intro u0 u1 st km
    exact lookup_impl_mod32 hashFn u0 u1 st km keys rulesIn hr

/-- Claim C10: every rule held by a subtable carries exactly that subtable's
mask; the invariant is established by insert, preserved by remove and
optimize, and consequently matching a rule against a packet always uses the
mask of the subtable holding the rule. -/
theorem C10_rule_mask_is_subtable_mask (cls : Dpcls) (r : DpclsRule)
    (h : MaskInv cls) :
    MaskInv (dpcls_insert cls r) ∧
    MaskInv (dpcls_remove cls r) ∧
    MaskInv (dpcls_optimize cls) ∧
    (∀ st ∈ cls.subtables, ∀ r2 ∈ st.rules, r2.mask = st.mask ∧
      ∀ k, dpcls_rule_matches_key r2 k
        = dpcls_rule_matches_key { mask := st.mask, flow := r2.flow } k) := by
  refine ⟨maskInv_insert cls r h, maskInv_remove cls r h,
    maskInv_optimize cls h, ?_⟩
  intro st hst r2 hr2
  have hm := h st hst r2 hr2
  refine ⟨hm, ?_⟩
  intro k
  have h2 : ({ mask := st.mask, flow := r2.flow } : DpclsRule) = r2 := by
    rw [← hm]
  rw [h2]

/-- C5 evaluated on a classifier with two subtables whose rules both match the
packet. -/
theorem C5_mru_first_match_witness :
    (dpcls_lookup exHash exCls2 [exPkt2] [none]).2[0]? = some (some exRule) ∧
    (dpcls_lookup exHash exCls2 [exPkt2] [none]).2[0]? ≠ some (some exRule2) :=
  C5_mru_first_match exHash exCls2 [] [exSub2] exSub exSub2 exRule exRule2
    exPkt2 [exPkt2] [none] 0 (by decide) (by decide) (by decide) (by decide)
    (by decide) (by decide) (by decide) (by decide) (by decide) (by decide)
    (by decide) (by decide) (by decide) (by decide) (by decide) (by decide)
    (by decide) (by decide) (by decide) (by decide)

/-- C6 evaluated on a packet no subtable matches. -/
theorem C6_miss_bitmap_frame_witness :
    (dpcls_lookup exHash exCls [exPktEmpty] [none]).1.testBit 0 = true ∧
    (dpcls_lookup exHash exCls [exPktEmpty] [none]).2[0]? = [none][0]? :=
  C6_miss_bitmap_frame exHash exCls [exPktEmpty] [none] 0 exPktEmpty
    (by decide) (by decide) (by decide) (by decide) (by decide)

/-- C7 evaluated on a concrete batch. -/
theorem C7_lookup_total_witness :
    ((dpcls_lookup exHash exCls [exPkt] [none]).1.testBit 0 = false ∧
      (((dpcls_lookup exHash exCls [exPkt] [none]).2[0]?).getD none).isSome = true) ∨
    ((dpcls_lookup exHash exCls [exPkt] [none]).1.testBit 0 = true ∧
      (dpcls_lookup exHash exCls [exPkt] [none]).2[0]? = [none][0]?) :=
  C7_lookup_total exHash exCls [exPkt] [none] 0 (by decide) (by decide)
    (by decide)

/-- C8 evaluated on a concrete miniflow. -/
theorem C8_miniflow_invariant_witness :
    exPkt2.mf.WF ∧
    exPkt2.mf.values.length
      = popcount64 exPkt2.mf.map0 + popcount64 exPkt2.mf.map1 :=
  ⟨by decide, (C8_miniflow_invariant.1 exPkt2.mf (by decide)).1⟩

/-- C9 evaluated on a concrete batch. -/
theorem C9_batch_bitmap_bound_witness :
    2 ^ ([exPkt] : List NetdevFlowKey).length - 1 < 2 ^ 32 ∧
    (dpcls_lookup exHash exCls [exPkt] [none]).1 < 2 ^ 32 :=
  ⟨(C9_batch_bitmap_bound exHash exCls [exPkt] [none] (by decide) (by decide)).1,
   (C9_batch_bitmap_bound exHash exCls [exPkt] [none] (by decide) (by decide)).2.1⟩

/-- C10 evaluated on a concrete classifier. -/
theorem C10_rule_mask_is_subtable_mask_witness :
    MaskInv exCls ∧ MaskInv (dpcls_insert exCls exRule0) :=
  ⟨by decide, (C10_rule_mask_is_subtable_mask exCls exRule0 (by decide)).1⟩

end DpclsModel
